import Mathlib

/-!
Verification of the `diff_fs` repository (a content-addressed object store:
blobs, trees, a recursive tree builder and a store writer).

Modelling conventions (shallow embedding of the Rust source):
* Byte strings (`Vec<u8>`, `String`, `&str`) are `List Nat`, each element a
  byte value; Rust `str` comparison is lexicographic on UTF-8 bytes, which
  `bytesCmp` below implements.
* Machine integers are `Nat` with explicit truncation (`% 256`) where the
  source casts (`as u16`).
* SHA-1 (the `sha1` crate) is implemented in full below and validated
  against the test vector asserted in `src/blob.rs`
  (`sha1("hello world") = 2aae6c35...`).
* Fallible code returns `Except`/`BuildResult`; `.unwrap()` panics are a
  distinct `BuildResult.panicked` outcome.
* The filesystem seen by `create_tree` is the inductive `FsNode`; a
  directory is a chain of `dirConsOk`/`dirConsErr` cells ending in `dirNil`,
  mirroring the `read_dir` iterator (which yields `Result<DirEntry>` items).
* The mutable callback `FnMut(&Tree, &str)` is explicit state passing:
  a function `σ → Tree → List Nat → σ`.
-/

set_option maxRecDepth 100000

namespace DiffFs

/-- `k`-byte big-endian encoding of `n` (matches `uN::to_be_bytes` after the
source's `as u16` style truncating cast: high bytes are reduced mod 256). -/
def toBytesBE : Nat → Nat → List Nat
  | 0, _ => []
  | k + 1, n => toBytesBE k (n / 256) ++ [n % 256]

/-! ## SHA-1 (the `sha1` crate used by both source files) -/

/-- 2^32, the modulus for SHA-1 word arithmetic. -/
def M32 : Nat := 4294967296

/-- 32-bit left rotation by `k`. -/
def rotl (k x : Nat) : Nat := ((x <<< k) % M32) ||| (x >>> (32 - k))

/-- Big-endian 32-bit words from a byte list (length a multiple of 4). -/
def toWords : List Nat → List Nat
  | a :: b :: c :: d :: rest => (((a * 256 + b) * 256 + c) * 256 + d) :: toWords rest
  | _ => []

/-- Extend the 16 block words to 80 schedule words.  `acc` holds the words
produced so far, most recent first; `n` counts the words still to produce. -/
def extendWords : Nat → List Nat → List Nat
  | 0, acc => acc.reverse
  | n + 1, acc =>
    let g := fun k => acc.getD k 0
    extendWords n (rotl 1 (g 2 ^^^ g 7 ^^^ g 13 ^^^ g 15) :: acc)

/-- One SHA-1 round: round index `i`, schedule word `w`, state `(a,b,c,d,e)`. -/
def sha1Round (st : Nat × Nat × Nat × Nat × Nat) (iw : Nat × Nat) :
    Nat × Nat × Nat × Nat × Nat :=
  let (a, b, c, d, e) := st
  let (i, w) := iw
  let f :=
    if i < 20 then (b &&& c) ||| ((4294967295 ^^^ b) &&& d)
    else if i < 40 then b ^^^ c ^^^ d
    else if i < 60 then (b &&& c) ||| (b &&& d) ||| (c &&& d)
    else b ^^^ c ^^^ d
  let k :=
    if i < 20 then 1518500249
    else if i < 40 then 1859775393
    else if i < 60 then 2400959708
    else 3395469782
  let temp := (rotl 5 a + f + e + k + w) % M32
  (temp, a, rotl 30 b, c, d)

/-- Compress one 64-byte block into the running hash state. -/
def processBlock (h : Nat × Nat × Nat × Nat × Nat) (block : List Nat) :
    Nat × Nat × Nat × Nat × Nat :=
  let w16 := toWords block
  let ws := extendWords 64 w16.reverse
  let (h0, h1, h2, h3, h4) := h
  let (a, b, c, d, e) := ws.enum.foldl sha1Round (h0, h1, h2, h3, h4)
  ((h0 + a) % M32, (h1 + b) % M32, (h2 + c) % M32, (h3 + d) % M32, (h4 + e) % M32)

/-- Split a byte list into 64-byte chunks (`fuel` bounds the recursion;
one unit of fuel per input byte is always enough). -/
def chunksAux : Nat → List Nat → List (List Nat)
  | 0, _ => []
  | _ + 1, [] => []
  | fuel + 1, l => l.take 64 :: chunksAux fuel (l.drop 64)

/-- Split a byte list into 64-byte chunks. -/
def chunks (l : List Nat) : List (List Nat) := chunksAux l.length l

/-- SHA-1 padding: append `0x80`, zeros to 56 mod 64, then the 64-bit
big-endian bit length. -/
def padMsg (m : List Nat) : List Nat :=
  let L := m.length
  let z := (64 + 56 - ((L + 1) % 64)) % 64
  m ++ [128] ++ List.replicate z 0 ++ toBytesBE 8 (8 * L)

/-- The 20-byte SHA-1 digest of a byte list. -/
def sha1Bytes (m : List Nat) : List Nat :=
  let st := (chunks (padMsg m)).foldl processBlock
    (1732584193, 4023233417, 2562383102, 271733878, 3285377520)
  let (h0, h1, h2, h3, h4) := st
  toBytesBE 4 h0 ++ toBytesBE 4 h1 ++ toBytesBE 4 h2 ++ toBytesBE 4 h3 ++ toBytesBE 4 h4

/-- ASCII code of the lowercase hex digit for `n < 16`. -/
def hexChar (n : Nat) : Nat := if n < 10 then 48 + n else 87 + n

/-- Lowercase hex rendering of a byte list, as ASCII codes (two digits per
byte) — the `format!("\x7b:x\x7d", hash)` string, viewed as its UTF-8 bytes. -/
def bytesToHexAscii : List Nat → List Nat
  | [] => []
  | b :: bs => hexChar (b / 16) :: hexChar (b % 16) :: bytesToHexAscii bs

/-- The 40-character lowercase hex SHA-1 digest of a byte list, as the byte
list of its ASCII codes.  This models `format!("\x7b:x\x7d", hasher.finalize())`. -/
def sha1Hex (m : List Nat) : List Nat := bytesToHexAscii (sha1Bytes m)

/-- The SHA-1 model agrees with the test vector asserted in `src/blob.rs`:
the digest of `"hello world"` is `2aae6c35c94fcfb415dbe95f408b9ce91ee846ed`. -/
theorem sha1Hex_hello_world :
    sha1Hex [104, 101, 108, 108, 111, 32, 119, 111, 114, 108, 100] =
      [50, 97, 97, 101, 54, 99, 51, 53, 99, 57, 52, 102, 99, 102, 98, 52, 49, 53,
       100, 98, 101, 57, 53, 102, 52, 48, 56, 98, 57, 99, 101, 57, 49, 101, 101,
       56, 52, 54, 101, 100] := by decide

/-! ## The tree data model (`src/tree.rs`) -/

/-- `enum EntryId` from `src/tree.rs`: the SHA-1 hash (as its 40-character
lowercase hex string, here the list of that string's bytes) of a file
(`Blob`) or of a directory (`Tree`). -/
inductive EntryId : Type where
  | blob (sha1 : List Nat)
  | tree (sha1 : List Nat)
deriving DecidableEq, Repr

/-- `EntryId::get_id`. -/
def EntryId.get_id : EntryId → List Nat
  | .blob sha1 => sha1
  | .tree sha1 => sha1

/-- `struct Entry`: a file or directory name together with its id.
`name` is the list of the name's UTF-8 bytes. -/
structure Entry : Type where
  name : List Nat
  oid : EntryId
deriving DecidableEq, Repr

/-- `EntryId::typeOrder`: compares the kinds of two entries; `Blob` before
`Tree`, equal kinds compare equal. -/
def EntryId.typeOrder (a b : Entry) : Ordering :=
  match a.oid, b.oid with
  | .blob _, .tree _ => Ordering.lt
  | .tree _, .blob _ => Ordering.gt
  | _, _ => Ordering.eq

/-- Lexicographic byte-wise comparison of byte lists: the model of Rust's
`str::cmp` (which compares UTF-8 bytes lexicographically). -/
def bytesCmp : List Nat → List Nat → Ordering
  | [], [] => Ordering.eq
  | [], _ :: _ => Ordering.lt
  | _ :: _, [] => Ordering.gt
  | a :: xs, b :: ys =>
    if a < b then Ordering.lt
    else if b < a then Ordering.gt
    else bytesCmp xs ys

/-- The comparator closure inside `Tree::sort_entries`: kind first
(`typeOrder`), then the hex id strings. -/
def entryCmp (a b : Entry) : Ordering :=
  let type_order := EntryId.typeOrder a b
  if type_order ≠ Ordering.eq then type_order
  else bytesCmp a.oid.get_id b.oid.get_id

/-- The non-strict order induced by `entryCmp`.  Rust's `sort_by` is a
stable sort; a stable sort by a comparator is exactly insertion sort by
this relation (an element is placed before the first strictly greater one,
after earlier equal ones), which `Tree.sort_entries` below uses. -/
def entryLe (a b : Entry) : Prop := entryCmp a b ≠ Ordering.gt

instance : DecidableRel entryLe := fun a b => by
  unfold entryLe; infer_instance

/-- `Entry::bytes`: 2-byte big-endian record length, then the 1-byte kind
tag (0 = Blob, 1 = Tree), then the id bytes (`oid.bytes()` — the ASCII
bytes of the hex string, NOT hex-decoded), then the name bytes.
`length = 2 + 1 + oid.len() + name.len()`, truncated by the `as u16` cast. -/
def Entry.bytes (e : Entry) : List Nat :=
  let oid := e.oid.get_id
  let length := 2 + 1 + oid.length + e.name.length
  toBytesBE 2 length ++
    (match e.oid with
     | .blob _ => [0]
     | .tree _ => [1]) ++
    oid ++ e.name

/-- `struct Tree`. -/
structure Tree : Type where
  entries : List Entry
deriving DecidableEq, Repr

/-- `Tree::sort_entries`: stable sort of the entries by `entryCmp`
(see `entryLe`). -/
def Tree.sort_entries (t : Tree) : Tree :=
  ⟨List.insertionSort entryLe t.entries⟩

/-- The concatenation of the per-entry encodings, in order (the
`for entry in &self.entries` loop body of `Tree::bytes`). -/
def entriesConcat : List Entry → List Nat
  | [] => []
  | e :: es => Entry.bytes e ++ entriesConcat es

/-- `Tree::bytes(&mut self)`: sorts the entries in place, then produces the
2-byte big-endian entry count followed by the entry encodings.  The mutation
is modelled by also returning the sorted tree. -/
def Tree.bytes (t : Tree) : List Nat × Tree :=
  let sorted := Tree.sort_entries t
  (toBytesBE 2 sorted.entries.length ++ entriesConcat sorted.entries, sorted)

/-- `Tree::calculate_sha1(&mut self)`: the hex SHA-1 of `Tree::bytes`
(which sorts the entries; the sorted tree is returned alongside). -/
def Tree.calculate_sha1 (t : Tree) : List Nat × Tree :=
  let p := Tree.bytes t
  (sha1Hex p.1, p.2)

/-! ## Order-theoretic facts about the entry comparator -/

theorem bytesCmp_swap : ∀ x y : List Nat, bytesCmp y x = (bytesCmp x y).swap
  | [], [] => rfl
  | [], _ :: _ => rfl
  | _ :: _, [] => rfl
  | a :: xs, b :: ys => by
    simp only [bytesCmp]
    by_cases h1 : a < b
    · simp [h1, Nat.lt_asymm h1, Ordering.swap]
    · by_cases h2 : b < a
      · simp [h1, h2, Ordering.swap]
      · simp [h1, h2, bytesCmp_swap xs ys]

theorem bytesCmp_eq_iff : ∀ x y : List Nat, bytesCmp x y = Ordering.eq ↔ x = y
  | [], [] => by simp [bytesCmp]
  | [], _ :: _ => by simp [bytesCmp]
  | _ :: _, [] => by simp [bytesCmp]
  | a :: xs, b :: ys => by
    simp only [bytesCmp, List.cons.injEq]
    by_cases h1 : a < b
    · have : a ≠ b := by omega
      simp [h1, this]
    · by_cases h2 : b < a
      · have : a ≠ b := by omega
        simp [h1, h2, this]
      · have hab : a = b := by omega
        simp [h1, h2, hab, bytesCmp_eq_iff xs ys]

theorem bytesCmp_cons (a b : Nat) (xs ys : List Nat) :
    bytesCmp (a :: xs) (b :: ys) =
      if a < b then Ordering.lt else if b < a then Ordering.gt else bytesCmp xs ys := rfl

theorem bytesCmp_lt_trans :
    ∀ {x y z : List Nat}, bytesCmp x y = Ordering.lt → bytesCmp y z = Ordering.lt →
      bytesCmp x z = Ordering.lt
  | [], [], _, h1, _ => by cases h1
  | [], _ :: _, [], _, h2 => by cases h2
  | [], _ :: _, _ :: _, _, _ => rfl
  | _ :: _, [], _, h1, _ => by cases h1
  | _ :: _, _ :: _, [], _, h2 => by cases h2
  | a :: xs, b :: ys, c :: zs, h1, h2 => by
    rw [bytesCmp_cons] at h1 h2 ⊢
    by_cases hab : a < b
    · by_cases hbc : b < c
      · rw [if_pos (show a < c by omega)]
      · by_cases hcb : c < b
        · rw [if_neg hbc, if_pos hcb] at h2
          exact absurd h2 (by decide)
        · rw [if_pos (show a < c by omega)]
    · by_cases hba : b < a
      · rw [if_neg hab, if_pos hba] at h1
        exact absurd h1 (by decide)
      · rw [if_neg hab, if_neg hba] at h1
        by_cases hbc : b < c
        · rw [if_pos (show a < c by omega)]
        · by_cases hcb : c < b
          · rw [if_neg hbc, if_pos hcb] at h2
            exact absurd h2 (by decide)
          · rw [if_neg hbc, if_neg hcb] at h2
            rw [if_neg (show ¬ a < c by omega), if_neg (show ¬ c < a by omega)]
            exact bytesCmp_lt_trans h1 h2

theorem bytesCmp_le_trans {x y z : List Nat} (h1 : bytesCmp x y ≠ Ordering.gt)
    (h2 : bytesCmp y z ≠ Ordering.gt) : bytesCmp x z ≠ Ordering.gt := by
  rcases hv1 : bytesCmp x y with _ | _ | _
  · rcases hv2 : bytesCmp y z with _ | _ | _
    · rw [bytesCmp_lt_trans hv1 hv2]; simp
    · rw [(bytesCmp_eq_iff y z).mp hv2] at hv1; rw [hv1]; simp
    · exact absurd hv2 h2
  · rw [(bytesCmp_eq_iff x y).mp hv1]; exact h2
  · exact absurd hv1 h1

theorem entryCmp_swap (a b : Entry) : entryCmp b a = (entryCmp a b).swap := by
  obtain ⟨na, oa⟩ := a
  obtain ⟨nb, ob⟩ := b
  cases oa <;> cases ob <;>
    simp only [entryCmp, EntryId.typeOrder, EntryId.get_id] <;>
    first
      | rfl
      | (rw [bytesCmp_swap]
         rcases bytesCmp _ _ <;> rfl)

instance : IsTotal Entry entryLe :=
  ⟨fun a b => by
    unfold entryLe
    rcases h : entryCmp a b with _ | _ | _
    · exact Or.inl (by simp [h])
    · exact Or.inl (by simp [h])
    · refine Or.inr ?_
      rw [entryCmp_swap, h]
      simp [Ordering.swap]⟩

instance : IsTrans Entry entryLe :=
  ⟨by
    rintro ⟨na, oa⟩ ⟨nb, ob⟩ ⟨nc, oc⟩ h1 h2
    unfold entryLe entryCmp EntryId.typeOrder at h1 h2 ⊢
    cases oa <;> cases ob <;> cases oc <;>
      simp_all [EntryId.get_id] <;>
      exact bytesCmp_le_trans h1 h2⟩

/-- The strict order induced by `entryCmp`. -/
def entryLt (a b : Entry) : Prop := entryCmp a b = Ordering.lt

instance : IsAntisymm Entry entryLt :=
  ⟨fun a b h1 h2 => by
    unfold entryLt at h1 h2
    rw [entryCmp_swap, h1] at h2
    exact absurd h2 (by decide)⟩

/-- Distinctness of two entries' sort keys (kind and hex id). -/
def keyNe (a b : Entry) : Prop := entryCmp a b ≠ Ordering.eq

instance : DecidableRel keyNe := fun a b => by
  unfold keyNe; infer_instance

theorem keyNe_symm : ∀ {a b : Entry}, keyNe a b → keyNe b a := by
  intro a b h heq
  apply h
  rw [entryCmp_swap] at heq
  rcases hv : entryCmp a b <;> rw [hv] at heq <;> first | rfl | exact absurd heq (by decide)

theorem entryLt_of_le_of_ne {a b : Entry} (h1 : entryLe a b) (h2 : keyNe a b) :
    entryLt a b := by
  unfold entryLe at h1
  unfold keyNe at h2
  unfold entryLt
  rcases hv : entryCmp a b
  · rfl
  · exact absurd hv h2
  · exact absurd hv h1

/-- A stable sort of two lists that are permutations of each other and whose
sort keys are pairwise distinct is the same list. -/
theorem insertionSort_eq_of_perm {l₁ l₂ : List Entry} (hp : l₁.Perm l₂)
    (hd : List.Pairwise keyNe l₁) :
    List.insertionSort entryLe l₁ = List.insertionSort entryLe l₂ := by
  have hp1 : (List.insertionSort entryLe l₁).Perm l₁ := List.perm_insertionSort _ _
  have hp2 : (List.insertionSort entryLe l₂).Perm l₂ := List.perm_insertionSort _ _
  have hperm : (List.insertionSort entryLe l₁).Perm (List.insertionSort entryLe l₂) :=
    hp1.trans (hp.trans hp2.symm)
  have hd1 : List.Pairwise keyNe (List.insertionSort entryLe l₁) :=
    (hp1.pairwise_iff keyNe_symm).mpr hd
  have hd2 : List.Pairwise keyNe (List.insertionSort entryLe l₂) :=
    (hperm.pairwise_iff keyNe_symm).mp hd1
  have hlt1 : List.Sorted entryLt (List.insertionSort entryLe l₁) :=
    ((List.sorted_insertionSort entryLe l₁).and hd1).imp fun h => entryLt_of_le_of_ne h.1 h.2
  have hlt2 : List.Sorted entryLt (List.insertionSort entryLe l₂) :=
    ((List.sorted_insertionSort entryLe l₂).and hd2).imp fun h => entryLt_of_le_of_ne h.1 h.2
  exact List.eq_of_perm_of_sorted hperm hlt1 hlt2

/-! ## The filesystem model and `create_tree` -/

/-- An opaque I/O error value (`std::io::Error`), identified by a code so
that propagation "returns that error" is observable. -/
structure IOErr : Type where
  code : Nat
deriving DecidableEq, Repr

/-- The error `fs::read_dir` produces when the path is not a directory. -/
def notADirectory : IOErr := ⟨20⟩

instance {ε α : Type} [DecidableEq ε] [DecidableEq α] : DecidableEq (Except ε α) := fun x y =>
  match x, y with
  | .ok a, .ok b =>
    if h : a = b then isTrue (by rw [h]) else isFalse (fun he => by cases he; exact h rfl)
  | .ok _, .error _ => isFalse (fun he => by cases he)
  | .error _, .ok _ => isFalse (fun he => by cases he)
  | .error e, .error f =>
    if h : e = f then isTrue (by rw [h]) else isFalse (fun he => by cases he; exact h rfl)

/-- A node of the filesystem as observed by `create_tree`:
* `file res` — a regular file; `res` is the outcome of reading its bytes
  (an `Except` because opening/reading can fail during blob hashing);
* `dirErr e` — a directory on which `fs::read_dir` fails with `e`;
* `dirNil` / `dirConsErr` / `dirConsOk` — a directory whose enumeration
  succeeds, as the chain of items its `read_dir` iterator yields, in
  enumeration order: `dirConsErr e rest` is an item yielded as `Err(e)`,
  `dirConsOk name child rest` an item yielded as `Ok` whose file name
  converts to a Unicode string iff `name = some bytes`. -/
inductive FsNode : Type where
  | file (content : Except IOErr (List Nat))
  | dirErr (e : IOErr)
  | dirNil
  | dirConsErr (e : IOErr) (rest : FsNode)
  | dirConsOk (name : Option (List Nat)) (child : FsNode) (rest : FsNode)
deriving DecidableEq, Repr

/-- `blob::calculate_sha1` (`src/blob.rs`): opens the file, reads it in
1024-byte chunks feeding a SHA-1 hasher (equivalent to hashing the whole
content), and returns the lowercase hex digest; any I/O failure is
propagated. -/
def blob.calculate_sha1 : Except IOErr (List Nat) → Except IOErr (List Nat)
  | .ok content => .ok (sha1Hex content)
  | .error e => .error e

/-- Outcome of a `create_tree` run: a returned value, a returned
`Err(e)`, or a Rust panic (from `.unwrap()`). -/
inductive BuildResult (α : Type) : Type where
  | ok (val : α)
  | fail (e : IOErr)
  | panicked
deriving DecidableEq, Repr

/-- The body of `create_tree`'s `for entry in fs::read_dir(path)?` loop over
one directory's item chain, accumulating entries in enumeration order and
threading the callback state.

* an item yielded as `Err` hits `entry.unwrap()` — panic;
* an item whose name is not Unicode hits `into_string().unwrap()` — panic;
* a file child: `blob::calculate_sha1(&path)?` (errors propagate), pushing
  a `Blob` entry;
* a directory child whose `read_dir` fails: the recursive
  `create_tree(&path, ..)?` propagates the error;
* a directory child that enumerates: the recursive `create_tree` call is
  inlined (walk the child, assemble its `Tree`, hash it — which sorts —
  and fire the callback), after which the PARENT also re-hashes the
  returned tree and fires the callback AGAIN, then pushes a `Tree` entry. -/
def walkItems {σ : Type} (cb : σ → Tree → List Nat → σ) : FsNode → σ → BuildResult (List Entry × σ)
  | .dirConsErr _ _, _ => .panicked
  | .dirConsOk none _ _, _ => .panicked
  | .dirConsOk (some nm) (.file contRes) rest, s =>
    match blob.calculate_sha1 contRes with
    | .error e => .fail e
    | .ok h =>
      match walkItems cb rest s with
      | .ok (es, s1) => .ok (⟨nm, .blob h⟩ :: es, s1)
      | .fail e => .fail e
      | .panicked => .panicked
  | .dirConsOk (some _) (.dirErr e) _, _ => .fail e
  | .dirConsOk (some nm) sub rest, s =>
    match walkItems cb sub s with
    | .ok (entries, s1) =>
      let child : Tree := ⟨entries⟩
      let p := Tree.calculate_sha1 child
      let s2 := cb s1 p.2 p.1
      let q := Tree.calculate_sha1 p.2
      let s3 := cb s2 q.2 q.1
      match walkItems cb rest s3 with
      | .ok (es, s4) => .ok (⟨nm, .tree q.1⟩ :: es, s4)
      | .fail e => .fail e
      | .panicked => .panicked
    | .fail e => .fail e
    | .panicked => .panicked
  | _, s => .ok ([], s)

/-- `create_tree` (`src/tree.rs`): enumerate the directory (`read_dir`
failure propagates), process the children (`walkItems`), then assemble the
`Tree`, compute its hash (sorting the entries), fire the completion
callback once more, and return the (sorted) tree. -/
def create_tree {σ : Type} (cb : σ → Tree → List Nat → σ) (fs : FsNode) (s : σ) :
    BuildResult (Tree × σ) :=
  match fs with
  | .file _ => .fail notADirectory
  | .dirErr e => .fail e
  | listing =>
    match walkItems cb listing s with
    | .ok (entries, s1) =>
      let result : Tree := ⟨entries⟩
      let p := Tree.calculate_sha1 result
      .ok (p.2, cb s1 p.2 p.1)
    | .fail e => .fail e
    | .panicked => .panicked

/-- The inlining of the recursive `create_tree` call inside `walkItems` is
faithful: on a directory child (any non-`file` node) the subdirectory
branch is exactly `create_tree` on the child followed by the parent's
re-hash, extra callback, entry push, and continuation. -/
theorem walkItems_dir_child {σ : Type} (cb : σ → Tree → List Nat → σ)
    (nm : List Nat) (sub rest : FsNode) (s : σ)
    (hsub : ∀ c, sub ≠ .file c) :
    walkItems cb (.dirConsOk (some nm) sub rest) s =
      match create_tree cb sub s with
      | .ok (tree, s1) =>
        let q := Tree.calculate_sha1 tree
        let s2 := cb s1 q.2 q.1
        (match walkItems cb rest s2 with
         | .ok (es, s3) => .ok (⟨nm, .tree q.1⟩ :: es, s3)
         | .fail e => .fail e
         | .panicked => .panicked)
      | .fail e => .fail e
      | .panicked => .panicked := by
  cases sub with
  | file c => exact absurd rfl (hsub c)
  | dirErr e => rfl
  | dirNil => rfl
  | dirConsErr e r => rfl
  | dirConsOk nm' c r =>
    rcases hw : walkItems cb (FsNode.dirConsOk nm' c r) s with v | e | _ <;>
      simp only [walkItems, create_tree, hw]

/-! ## Pure descriptions of a successful `create_tree` run -/

/-- Applying the callback in sequence to a list of `(tree, hash)` call
arguments: the state after a run whose callback fired on exactly that
list, in order. -/
def applyTrace {σ : Type} (cb : σ → Tree → List Nat → σ) : σ → List (Tree × List Nat) → σ
  | s, [] => s
  | s, (t, h) :: r => applyTrace cb (cb s t h) r

/-- The entry list `create_tree` accumulates for a directory's item chain
(enumeration order), on an error-free filesystem. -/
def entriesOf : FsNode → List Entry
  | .dirConsOk (some nm) c r =>
    (match c with
     | .file (.ok cont) => [⟨nm, .blob (sha1Hex cont)⟩]
     | .file (.error _) => []
     | d => [⟨nm, .tree (Tree.calculate_sha1 ⟨entriesOf d⟩).1⟩]) ++ entriesOf r
  | _ => []

/-- The (sorted) tree `create_tree` returns for a directory. -/
def treeOf (fs : FsNode) : Tree := (Tree.calculate_sha1 ⟨entriesOf fs⟩).2

/-- The root hash `create_tree` computes for a directory. -/
def nodeHash (fs : FsNode) : List Nat := (Tree.calculate_sha1 ⟨entriesOf fs⟩).1

/-- The `(tree, hash)` callback firings `walkItems` performs over one item
chain: none for a file child; for a directory child, the child's own run's
firings followed by the parent loop's repeated firing for the same child. -/
def traceOf : FsNode → List (Tree × List Nat)
  | .dirConsOk (some _) c r =>
    (match c with
     | .file _ => []
     | d => traceOf d ++ [(treeOf d, nodeHash d), (treeOf d, nodeHash d)]) ++ traceOf r
  | _ => []

/-- All `(tree, hash)` callback firings of `create_tree` on a directory:
the walk's firings, then the root's own. -/
def createTrace (fs : FsNode) : List (Tree × List Nat) :=
  traceOf fs ++ [(treeOf fs, nodeHash fs)]

/-- Number of subdirectories (directory children, recursively — the root
itself not counted) in a directory's item chain. -/
def subdirCount : FsNode → Nat
  | .dirConsOk (some _) c r =>
    (match c with
     | .file _ => 0
     | d => subdirCount d + 1) + subdirCount r
  | _ => 0

/-- Error-free filesystem: every file readable, every directory enumerable,
every yielded item `Ok` with a Unicode name. -/
def wf : FsNode → Bool
  | .file (.ok _) => true
  | .dirNil => true
  | .dirConsOk (some _) c r => wf c && wf r
  | _ => false

/-- `fs` is a directory (a node `create_tree` can walk, not a file and not
a failing `read_dir`). -/
def isDirRoot : FsNode → Bool
  | .file _ => false
  | .dirErr _ => false
  | _ => true

/-- Boolean pairwise distinctness of the entries' sort keys. -/
def keysDistinct : List Entry → Bool
  | [] => true
  | e :: es => es.all (fun f => decide (entryCmp e f ≠ Ordering.eq)) && keysDistinct es

theorem keysDistinct_iff : ∀ es : List Entry, keysDistinct es = true ↔ List.Pairwise keyNe es
  | [] => by simp [keysDistinct]
  | e :: es => by
    simp [keysDistinct, keysDistinct_iff es, List.pairwise_cons, keyNe, List.all_eq_true,
      and_comm]

/-- For a directory child, its own entry keys must be pairwise distinct
(files need nothing). -/
def childOk : FsNode → Bool
  | .file _ => true
  | d => keysDistinct (entriesOf d)

/-- Error-free filesystem in which every subdirectory's entry keys are
pairwise distinct (the condition under which the stable sort makes the
serialization enumeration-order independent). -/
def good : FsNode → Bool
  | .file (.ok _) => true
  | .dirNil => true
  | .dirConsOk (some _) c r => good c && good r && childOk c
  | _ => false

theorem wf_of_good : ∀ fs : FsNode, good fs = true → wf fs = true
  | .file (.ok _), _ => rfl
  | .dirNil, _ => rfl
  | .dirConsOk (some _) c r, h => by
    simp only [good, Bool.and_eq_true] at h
    simp only [wf, Bool.and_eq_true]
    exact ⟨wf_of_good c h.1.1, wf_of_good r h.1.2⟩

/-! ## Running `create_tree` on an error-free filesystem -/

theorem applyTrace_append {σ : Type} (cb : σ → Tree → List Nat → σ) :
    ∀ (t1 t2 : List (Tree × List Nat)) (s : σ),
      applyTrace cb s (t1 ++ t2) = applyTrace cb (applyTrace cb s t1) t2
  | [], _, _ => rfl
  | (t, h) :: r, t2, s => by
    simp only [List.cons_append, applyTrace]
    exact applyTrace_append cb r t2 (cb s t h)

/-- Sorting the entries twice is sorting them once. -/
theorem insertionSort_idem (l : List Entry) :
    List.insertionSort entryLe (List.insertionSort entryLe l) =
      List.insertionSort entryLe l :=
  (List.sorted_insertionSort entryLe l).insertionSort_eq

/-- Re-hashing the tree returned by `Tree::calculate_sha1` (already sorted)
gives the same hash and the same tree. -/
theorem calculate_sha1_idem (es : List Entry) :
    Tree.calculate_sha1 (Tree.calculate_sha1 ⟨es⟩).2 = Tree.calculate_sha1 ⟨es⟩ := by
  simp [Tree.calculate_sha1, Tree.bytes, Tree.sort_entries, insertionSort_idem]

/-- On an error-free filesystem, the walk over a directory's item chain
returns exactly the entries of `entriesOf` and fires the callback exactly
on `traceOf`. -/
theorem walkItems_wf {σ : Type} (cb : σ → Tree → List Nat → σ) :
    ∀ fs : FsNode, wf fs = true → ∀ s : σ,
      walkItems cb fs s = .ok (entriesOf fs, applyTrace cb s (traceOf fs)) := by
  intro fs
  induction fs with
  | file c =>
    intro hw s
    cases c with
    | ok v => rfl
    | error e => cases hw
  | dirErr e => intro hw; cases hw
  | dirNil => intro hw s; rfl
  | dirConsErr e r ihr => intro hw; cases hw
  | dirConsOk name c r ihc ihr =>
    intro hw s
    cases name with
    | none => cases hw
    | some nm =>
      simp only [wf, Bool.and_eq_true] at hw
      obtain ⟨hwc, hwr⟩ := hw
      cases c with
      | file contRes =>
        cases contRes with
        | ok cont =>
          simp only [walkItems, blob.calculate_sha1, ihr hwr s, entriesOf, traceOf,
            List.nil_append, List.singleton_append]
        | error e => cases hwc
      | dirErr e => cases hwc
      | dirConsErr e r' => cases hwc
      | dirNil =>
        simp only [walkItems, ihc hwc s, calculate_sha1_idem,
          ihr hwr, entriesOf, traceOf, treeOf, nodeHash, applyTrace_append, applyTrace,
          List.append_assoc, List.cons_append, List.nil_append, List.singleton_append,
          List.append_nil]
        rfl
      | dirConsOk name' c' r' =>
        simp only [walkItems, ihc hwc s, calculate_sha1_idem,
          ihr hwr, entriesOf, traceOf, treeOf, nodeHash, applyTrace_append, applyTrace,
          List.append_assoc, List.cons_append, List.nil_append, List.singleton_append,
          List.append_nil]

/-- On an error-free filesystem, `create_tree` on a directory succeeds,
returns the sorted tree `treeOf`, and fires the callback exactly on
`createTrace` (the walk's firings plus one for the root). -/
theorem create_tree_wf {σ : Type} (cb : σ → Tree → List Nat → σ) (fs : FsNode)
    (hwf : wf fs = true) (hdir : isDirRoot fs = true) (s : σ) :
    create_tree cb fs s = .ok (treeOf fs, applyTrace cb s (createTrace fs)) := by
  have hwalk := walkItems_wf cb fs hwf s
  cases fs with
  | file c => cases hdir
  | dirErr e => cases hdir
  | dirNil =>
    simp only [create_tree, hwalk, createTrace, applyTrace_append, applyTrace]
    rfl
  | dirConsErr e r =>
    simp only [create_tree, hwalk, createTrace, applyTrace_append, applyTrace]
    rfl
  | dirConsOk name c r =>
    simp only [create_tree, hwalk, createTrace, applyTrace_append, applyTrace]
    rfl

/-- The walk fires the callback exactly twice per subdirectory. -/
theorem traceOf_length : ∀ fs : FsNode, (traceOf fs).length = 2 * subdirCount fs
  | .file _ => rfl
  | .dirErr _ => rfl
  | .dirNil => rfl
  | .dirConsErr _ _ => rfl
  | .dirConsOk none _ _ => rfl
  | .dirConsOk (some nm) c r => by
    cases c <;>
      simp [traceOf, subdirCount, List.length_append, traceOf_length] <;>
      omega

/-- The state after running the counting callback is the old state plus
the number of firings. -/
theorem applyTrace_count :
    ∀ (tr : List (Tree × List Nat)) (s : Nat),
      applyTrace (fun n _ _ => n + 1) s tr = s + tr.length
  | [], _ => rfl
  | (t, h) :: r, s => by
    simp only [applyTrace, applyTrace_count r, List.length_cons]
    omega

/-! ## Reordering a directory's enumeration -/

/-- `Reorder fs1 fs2`: the two filesystems hold the same files and
directories, but the children of each directory may be enumerated in a
different order (generated, like `List.Perm`, by adjacent swaps). -/
inductive Reorder : FsNode → FsNode → Prop where
  | refl (n : FsNode) : Reorder n n
  | consOk (nm : Option (List Nat)) {c1 c2 r1 r2 : FsNode} :
      Reorder c1 c2 → Reorder r1 r2 →
      Reorder (.dirConsOk nm c1 r1) (.dirConsOk nm c2 r2)
  | consErr (e : IOErr) {r1 r2 : FsNode} :
      Reorder r1 r2 → Reorder (.dirConsErr e r1) (.dirConsErr e r2)
  | swap (nm1 nm2 : Option (List Nat)) (c1 c2 r : FsNode) :
      Reorder (.dirConsOk nm1 c1 (.dirConsOk nm2 c2 r))
        (.dirConsOk nm2 c2 (.dirConsOk nm1 c1 r))
  | trans {a b c : FsNode} : Reorder a b → Reorder b c → Reorder a c

theorem reorder_file {a b : FsNode} (h : Reorder a b) :
    ∀ x, a = FsNode.file x → b = FsNode.file x := by
  induction h with
  | refl n => exact fun _ hx => hx
  | consOk nm hc hr ihc ihr => intro x hx; simp at hx
  | consErr e hr ihr => intro x hx; simp at hx
  | swap nm1 nm2 c1 c2 r => intro x hx; simp at hx
  | trans h1 h2 ih1 ih2 => exact fun x hx => ih2 x (ih1 x hx)

theorem reorder_symm {a b : FsNode} (h : Reorder a b) : Reorder b a := by
  induction h with
  | refl n => exact .refl n
  | consOk nm hc hr ihc ihr => exact .consOk nm ihc ihr
  | consErr e hr ihr => exact .consErr e ihr
  | swap nm1 nm2 c1 c2 r => exact .swap nm2 nm1 c2 c1 r
  | trans h1 h2 ih1 ih2 => exact .trans ih2 ih1

theorem reorder_isDirRoot {a b : FsNode} (h : Reorder a b) :
    isDirRoot a = true → isDirRoot b = true := by
  induction h with
  | refl n => exact id
  | consOk nm hc hr ihc ihr => exact fun _ => rfl
  | consErr e hr ihr => exact fun _ => rfl
  | swap nm1 nm2 c1 c2 r => exact fun _ => rfl
  | trans h1 h2 ih1 ih2 => exact fun ha => ih2 (ih1 ha)

/-- The defining equation of `entriesOf` on a successfully yielded item. -/
theorem entriesOf_consOk (nm : List Nat) (c r : FsNode) :
    entriesOf (.dirConsOk (some nm) c r) =
      (match c with
       | .file (.ok cont) => [⟨nm, .blob (sha1Hex cont)⟩]
       | .file (.error _) => []
       | d => [⟨nm, .tree (Tree.calculate_sha1 ⟨entriesOf d⟩).1⟩]) ++ entriesOf r := by
  cases c with
  | file cv => cases cv <;> rfl
  | dirErr e => rfl
  | dirNil => rfl
  | dirConsErr e r' => rfl
  | dirConsOk nm' c' r' => rfl

theorem entriesOf_consOk_dir (nm : List Nat) (c r : FsNode)
    (hc : ∀ x, c ≠ FsNode.file x) :
    entriesOf (.dirConsOk (some nm) c r) =
      ⟨nm, .tree (Tree.calculate_sha1 ⟨entriesOf c⟩).1⟩ :: entriesOf r := by
  cases c with
  | file x => exact absurd rfl (hc x)
  | dirErr e => rfl
  | dirNil => rfl
  | dirConsErr e r' => rfl
  | dirConsOk nm' c' r' => rfl

theorem childOk_dir {c : FsNode} (hc : ∀ x, c ≠ FsNode.file x) :
    childOk c = keysDistinct (entriesOf c) := by
  cases c with
  | file x => exact absurd rfl (hc x)
  | dirErr e => rfl
  | dirNil => rfl
  | dirConsErr e r' => rfl
  | dirConsOk nm' c' r' => rfl

/-- Exchanging two sublists around a common tail is a permutation. -/
theorem perm_swap_chunks (E1 E2 es : List Entry) :
    (E1 ++ (E2 ++ es)).Perm (E2 ++ (E1 ++ es)) := by
  have h := (@List.perm_append_comm _ E1 E2).append_right es
  rw [List.append_assoc, List.append_assoc] at h
  exact h

/-- One directory-child step of the reorder induction: matched directory
children with permuted entry lists and distinct keys produce the same
child hash, so the surrounding chains' entries stay a permutation. -/
theorem reorder_dir_step {nm : List Nat} {c1 c2 r1 r2 : FsNode}
    (hc1 : ∀ x, c1 ≠ FsNode.file x) (hc2 : ∀ x, c2 ≠ FsNode.file x)
    (hgc2 : good c2 = true) (hgr2 : good r2 = true)
    (hpc : (entriesOf c1).Perm (entriesOf c2))
    (hpr : (entriesOf r1).Perm (entriesOf r2))
    (hok : childOk c1 = true) :
    good (FsNode.dirConsOk (some nm) c2 r2) = true ∧
      (entriesOf (FsNode.dirConsOk (some nm) c1 r1)).Perm
        (entriesOf (FsNode.dirConsOk (some nm) c2 r2)) := by
  have hd1 : List.Pairwise keyNe (entriesOf c1) := by
    rw [childOk_dir hc1] at hok
    exact (keysDistinct_iff _).mp hok
  have hd2 : List.Pairwise keyNe (entriesOf c2) := (hpc.pairwise_iff keyNe_symm).mp hd1
  have hsort := insertionSort_eq_of_perm hpc hd1
  have hhash : Tree.calculate_sha1 ⟨entriesOf c1⟩ = Tree.calculate_sha1 ⟨entriesOf c2⟩ := by
    simp [Tree.calculate_sha1, Tree.bytes, Tree.sort_entries, hsort]
  constructor
  · show (good c2 && good r2 && childOk c2) = true
    rw [childOk_dir hc2]
    simp [hgc2, hgr2, (keysDistinct_iff _).mpr hd2]
  · rw [entriesOf_consOk_dir _ _ _ hc1, entriesOf_consOk_dir _ _ _ hc2, hhash]
    exact List.Perm.cons _ hpr

/-- Reordering the enumeration of a `good` filesystem (all subdirectory
entry keys pairwise distinct) keeps it `good` and permutes each
directory's entry list. -/
theorem reorder_good {n1 n2 : FsNode} (h : Reorder n1 n2) :
    good n1 = true → good n2 = true ∧ (entriesOf n1).Perm (entriesOf n2) := by
  induction h with
  | refl n => exact fun hg => ⟨hg, List.Perm.refl _⟩
  | consOk nm hc hr ihc ihr =>
    rename_i c1 c2 r1 r2
    intro hg
    cases nm with
    | none => cases hg
    | some nm' =>
      simp only [good, Bool.and_eq_true] at hg
      obtain ⟨⟨hgc, hgr⟩, hok⟩ := hg
      obtain ⟨hgc2, hpc⟩ := ihc hgc
      obtain ⟨hgr2, hpr⟩ := ihr hgr
      cases c1 with
      | file cv =>
        cases cv with
        | ok v =>
          have hc2 : c2 = FsNode.file (.ok v) := reorder_file hc _ rfl
          subst hc2
          refine ⟨?_, ?_⟩
          · show (good (FsNode.file (.ok v)) && good r2 && childOk (FsNode.file (.ok v))) = true
            simp [good, childOk, hgr2]
          · simp only [entriesOf]
            exact List.Perm.append_left _ hpr
        | error e => cases hgc
      | dirErr e => cases hgc
      | dirNil =>
        have hc2 : ∀ x, c2 ≠ FsNode.file x := by
          intro x hx
          have := reorder_file (reorder_symm hc) x hx
          cases this
        exact reorder_dir_step (by intro x hx; cases hx) hc2 hgc2 hgr2 hpc hpr hok
      | dirConsErr e r' => cases hgc
      | dirConsOk nm'' c' r' =>
        have hc2 : ∀ x, c2 ≠ FsNode.file x := by
          intro x hx
          have := reorder_file (reorder_symm hc) x hx
          cases this
        exact reorder_dir_step (by intro x hx; cases hx) hc2 hgc2 hgr2 hpc hpr hok
  | consErr e hr ihr => intro hg; cases hg
  | swap nm1 nm2 c1 c2 r =>
    intro hg
    cases nm1 with
    | none => cases hg
    | some a =>
      cases nm2 with
      | none =>
        exfalso
        simp [good] at hg
      | some b =>
        simp only [good, Bool.and_eq_true] at hg
        obtain ⟨⟨hgc1, ⟨⟨hgc2, hgr⟩, hok2⟩⟩, hok1⟩ := hg
        constructor
        · show (good c2 && (good c1 && good r && childOk c1) && childOk c2) = true
          simp [hgc1, hgc2, hgr, hok1, hok2]
        · simp only [entriesOf_consOk]
          exact perm_swap_chunks _ _ _
  | trans h1 h2 ih1 ih2 =>
    intro hg
    obtain ⟨hg2, hp1⟩ := ih1 hg
    obtain ⟨hg3, hp2⟩ := ih2 hg2
    exact ⟨hg3, hp1.trans hp2⟩

/-! ## Error propagation through a directory walk -/

/-- Concatenate two directory item chains (used to place a failing item at
an arbitrary position after a well-formed prefix). -/
def appendChain : FsNode → FsNode → FsNode
  | .dirConsOk nm c r, tail => .dirConsOk nm c (appendChain r tail)
  | .dirConsErr e r, tail => .dirConsErr e (appendChain r tail)
  | _, tail => tail

theorem appendChain_isDirRoot :
    ∀ pre : FsNode, wf pre = true → ∀ tail : FsNode, isDirRoot tail = true →
      isDirRoot (appendChain pre tail) = true := by
  intro pre hw tail htail
  cases pre with
  | file cv => cases cv with
    | ok v => exact htail
    | error e => cases hw
  | dirErr e => cases hw
  | dirNil => exact htail
  | dirConsErr e r => cases hw
  | dirConsOk name c r =>
    cases name with
    | none => cases hw
    | some nm => rfl

/-- `create_tree` on a directory (chain) node is the walk followed by the
assembly of the root tree. -/
theorem create_tree_of_walk {σ : Type} (cb : σ → Tree → List Nat → σ) (fs : FsNode)
    (hdir : isDirRoot fs = true) (s : σ) :
    create_tree cb fs s =
      match walkItems cb fs s with
      | .ok (entries, s1) =>
        let p := Tree.calculate_sha1 ⟨entries⟩
        .ok (p.2, cb s1 p.2 p.1)
      | .fail e => .fail e
      | .panicked => .panicked := by
  cases fs with
  | file c => cases hdir
  | dirErr e => cases hdir
  | dirNil => rfl
  | dirConsErr e r => rfl
  | dirConsOk name c r => rfl

/-- If the walk of `tail` ends in the same non-`ok` result from every
state, prefixing any error-free chain does not change that result: the
walk aborts at the first failure, whatever was processed before it. -/
theorem walkItems_append_bad {σ : Type} (cb : σ → Tree → List Nat → σ)
    (r0 : BuildResult (List Entry × σ)) (hbad : ∀ v, r0 ≠ .ok v) :
    ∀ pre : FsNode, wf pre = true → ∀ tail : FsNode,
      (∀ s' : σ, walkItems cb tail s' = r0) → ∀ s : σ,
        walkItems cb (appendChain pre tail) s = r0 := by
  intro pre
  induction pre with
  | file cv =>
    intro hw tail hres s
    cases cv with
    | ok v => exact hres s
    | error e => cases hw
  | dirErr e => intro hw; cases hw
  | dirNil => intro hw tail hres s; exact hres s
  | dirConsErr e r ihr => intro hw; cases hw
  | dirConsOk name c r ihc ihr =>
    intro hw tail hres s
    cases name with
    | none => cases hw
    | some nm =>
      simp only [wf, Bool.and_eq_true] at hw
      obtain ⟨hwc, hwr⟩ := hw
      cases c with
      | file contRes =>
        cases contRes with
        | ok cont =>
          simp only [appendChain, walkItems, blob.calculate_sha1, ihr hwr tail hres s]
          rcases r0 with v | e | _
          · exact absurd rfl (hbad v)
          · rfl
          · rfl
        | error e => cases hwc
      | dirErr e => cases hwc
      | dirConsErr e r' => cases hwc
      | dirNil =>
        simp only [appendChain, walkItems, walkItems_wf cb _ hwc, ihr hwr tail hres]
        rcases r0 with v | e | _
        · exact absurd rfl (hbad v)
        · rfl
        · rfl
      | dirConsOk name' c' r' =>
        simp only [appendChain, walkItems, walkItems_wf cb _ hwc, ihr hwr tail hres]
        rcases r0 with v | e | _
        · exact absurd rfl (hbad v)
        · rfl
        · rfl

/-- A descent context: one `(pre, nm, rest)` level per directory on the
path from the root down to a failing directory.  `plugChain ctx tail`
places the item chain `tail` as the listing of a directory nested `|ctx|`
levels deep: at each level the enumeration first yields the error-free
prefix `pre`, then the subdirectory (named `nm`) holding the next level,
then arbitrary remaining items `rest`. -/
def plugChain : List (FsNode × List Nat × FsNode) → FsNode → FsNode
  | [], tail => tail
  | (pre, nm, rest) :: ctx, tail =>
    appendChain pre (.dirConsOk (some nm) (plugChain ctx tail) rest)

theorem plugChain_isDirRoot :
    ∀ ctx : List (FsNode × List Nat × FsNode), (∀ p ∈ ctx, wf p.1 = true) →
      ∀ tail : FsNode, isDirRoot tail = true → isDirRoot (plugChain ctx tail) = true
  | [], _, _, htail => htail
  | (pre, _, _) :: _, hctx, _, _ =>
    appendChain_isDirRoot pre (hctx _ (List.mem_cons_self _ _)) _ rfl

/-- If the walk of `tail` ends in the same non-`ok` result from every
state, that result survives being nested at ANY depth below error-free
ancestors: each level's recursive `create_tree` call forwards it, so it
reaches the walk of the root. -/
theorem walkItems_plug_bad {σ : Type} (cb : σ → Tree → List Nat → σ)
    (r0 : BuildResult (List Entry × σ)) (hbad : ∀ v, r0 ≠ .ok v) :
    ∀ ctx : List (FsNode × List Nat × FsNode),
      (∀ p ∈ ctx, wf p.1 = true) →
      ∀ tail : FsNode, isDirRoot tail = true →
        (∀ s' : σ, walkItems cb tail s' = r0) →
        ∀ s : σ, walkItems cb (plugChain ctx tail) s = r0
  | [], _, _, _, hres, s => hres s
  | (pre, nm, rest) :: ctx, hctx, tail, htail, hres, s => by
    have hpre : wf pre = true := hctx (pre, nm, rest) (List.mem_cons_self _ _)
    have hctx' : ∀ p ∈ ctx, wf p.1 = true := fun p hp => hctx p (List.mem_cons_of_mem _ hp)
    have hsubroot : isDirRoot (plugChain ctx tail) = true :=
      plugChain_isDirRoot ctx hctx' tail htail
    have hsubfile : ∀ c, plugChain ctx tail ≠ FsNode.file c := by
      intro c hc
      rw [hc] at hsubroot
      cases hsubroot
    have hsub := walkItems_plug_bad cb r0 hbad ctx hctx' tail htail hres
    have hres' : ∀ s' : σ,
        walkItems cb (.dirConsOk (some nm) (plugChain ctx tail) rest) s' = r0 := by
      intro s'
      rw [walkItems_dir_child cb nm (plugChain ctx tail) rest s' hsubfile,
        create_tree_of_walk cb (plugChain ctx tail) hsubroot s', hsub s']
      rcases r0 with v | e | _
      · exact absurd rfl (hbad v)
      · rfl
      · rfl
    exact walkItems_append_bad cb r0 hbad pre hpre _ hres' s

/-! ## The object store (`src/blob.rs`, `write_file_blob`) -/

/-- The object store directory: a flat map from `(subfolder, file_name)`
path pairs to file contents, as an association list (`create_dir_all` has
no observable effect in this view — directories exist implicitly). -/
def Store : Type := List ((List Nat × List Nat) × List Nat)

/-- `Path::exists` on `<root>/<subfolder>/<file_name>`. -/
def Store.lookup : Store → List Nat × List Nat → Option (List Nat)
  | [], _ => none
  | (k, v) :: rest, key => if k = key then some v else Store.lookup rest key

/-- How many files the store holds at the given path. -/
def Store.countKey : Store → List Nat × List Nat → Nat
  | [], _ => 0
  | (k, _) :: rest, key =>
    (if k = key then 1 else 0) + Store.countKey rest key

/-- `write_file_blob` (`src/blob.rs`): hash the source file, split the hex
hash into a 2-character subfolder and the remaining file name, create the
subfolder if needed, and copy the file there — unless the destination
already exists, in which case return `Ok(())` without writing.
`from_` is the source file's content (or the I/O error reading it yields),
`st` the store; returns the new store. -/
def write_file_blob (from_ : Except IOErr (List Nat)) (st : Store) :
    Except IOErr Store :=
  match blob.calculate_sha1 from_ with
  | .error e => .error e
  | .ok hash =>
    let subfolder := hash.take 2
    let file_name := hash.drop 2
    match Store.lookup st (subfolder, file_name) with
    | some _ => .ok st
    | none =>
      match from_ with
      | .ok content => .ok (((subfolder, file_name), content) :: st)
      | .error e => .error e

/-- `Store.lookup` finding nothing means no file with that key. -/
theorem countKey_zero_of_lookup_none :
    ∀ (st : Store) (key : List Nat × List Nat), Store.lookup st key = none →
      Store.countKey st key = 0
  | [], _, _ => rfl
  | (k, v) :: rest, key, h => by
    simp only [Store.lookup] at h
    by_cases hk : k = key
    · rw [if_pos hk] at h; cases h
    · simp only [Store.countKey, if_neg hk, countKey_zero_of_lookup_none rest key (by
        rwa [if_neg hk] at h)]

/-! ## Definitions taken from the specification's wording

These are NOT translations of the source; they restate what the spec
claims, to be compared against the source translations above. -/

/-- Modelled from the spec: the Hex Codec error `InvalidHexDigit(position)`
(§4.1); the codec itself is absent from the source tree. -/
inductive HexError : Type where
  | invalidHexDigit (pos : Nat)
deriving DecidableEq, Repr

/-- Value of one hex digit character (ASCII code), case-insensitive. -/
def hexDigitVal (c : Nat) : Option Nat :=
  if 48 ≤ c ∧ c ≤ 57 then some (c - 48)
  else if 97 ≤ c ∧ c ≤ 102 then some (c - 87)
  else if 65 ≤ c ∧ c ≤ 70 then some (c - 55)
  else none

/-- Modelled from the spec: `hex_to_bytes` (§4.1) — consume two characters
at a time, fail with `InvalidHexDigit` at the first non-hex character
(reporting its index in the original string), silently drop a final
unpaired character.  `i` is the index of the first character of `l`. -/
def hex_to_bytes_from (i : Nat) : List Nat → Except HexError (List Nat)
  | c1 :: c2 :: rest =>
    match hexDigitVal c1 with
    | none => .error (.invalidHexDigit i)
    | some hi =>
      match hexDigitVal c2 with
      | none => .error (.invalidHexDigit (i + 1))
      | some lo =>
        match hex_to_bytes_from (i + 2) rest with
        | .ok bs => .ok ((16 * hi + lo) :: bs)
        | .error e => .error e
  | _ => .ok []

/-- Modelled from the spec: `hex_to_bytes` starting at index 0. -/
def hex_to_bytes (l : List Nat) : Except HexError (List Nat) := hex_to_bytes_from 0 l

/-- The kind tag byte of an entry id: 0 for Blob, 1 for Tree. -/
def kindByte : EntryId → Nat
  | .blob _ => 0
  | .tree _ => 1

/-- The rank the spec assigns to an entry kind for sorting: Blob strictly
before Tree. -/
def kindRank : EntryId → Nat
  | .blob _ => 0
  | .tree _ => 1

/-- The sort order stated by the spec (§4.3): primary key the kind with
Blob strictly before Tree, secondary key lexicographic comparison of the
hex hash string (not the name). -/
def specLe (a b : Entry) : Prop :=
  kindRank a.oid < kindRank b.oid ∨
    (kindRank a.oid = kindRank b.oid ∧ bytesCmp a.oid.get_id b.oid.get_id ≠ Ordering.gt)

theorem specLe_of_entryLe {a b : Entry} (h : entryLe a b) : specLe a b := by
  unfold entryLe entryCmp EntryId.typeOrder at h
  obtain ⟨na, oa⟩ := a
  obtain ⟨nb, ob⟩ := b
  unfold specLe kindRank
  cases oa <;> cases ob <;> simp_all [EntryId.get_id]

/-- The entry layout claim C3 states (from the spec §4.2/§6): 1-byte kind
tag first, then the 2-byte big-endian record length, then hash, then name. -/
def entryBytesKindFirst (e : Entry) : List Nat :=
  let oid := e.oid.get_id
  let length := 1 + 2 + oid.length + e.name.length
  [kindByte e.oid] ++ toBytesBE 2 length ++ oid ++ e.name

/-- The entry encoding claim C4 states: the hash portion is the raw bytes
obtained by hex-decoding the hex `oid` (so 20 bytes for a 160-bit hash),
failing if the oid is not valid hex (record layout otherwise as the source
has it: length first, then kind). -/
def entryBytesDecoded (e : Entry) : Except HexError (List Nat) :=
  match hex_to_bytes e.oid.get_id with
  | .error err => .error err
  | .ok raw =>
    let length := 2 + 1 + raw.length + e.name.length
    .ok (toBytesBE 2 length ++ [kindByte e.oid] ++ raw ++ e.name)

/-! ## Concrete fixtures for witnesses and counterexamples -/

/-- A counting completion callback (`completed_count` in the source's own
test): state is the number of invocations so far. -/
def cbCount : Nat → Tree → List Nat → Nat := fun n _ _ => n + 1

/-- The root hash reported by a run (the hash of the returned tree),
when the run succeeded. -/
def rootHashOf {σ : Type} : BuildResult (Tree × σ) → Option (List Nat)
  | .ok (t, _) => some (Tree.calculate_sha1 t).1
  | _ => none

/-- The final callback-count state of a run, when the run succeeded. -/
def countOf : BuildResult (Tree × Nat) → Option Nat
  | .ok (_, n) => some n
  | _ => none

/-- Directory with files `a` and `b` holding the SAME content `[1]`,
enumerated `a` first. -/
def fsDupA : FsNode :=
  .dirConsOk (some [97]) (.file (.ok [1]))
    (.dirConsOk (some [98]) (.file (.ok [1])) .dirNil)

/-- The same directory enumerated `b` first. -/
def fsDupB : FsNode :=
  .dirConsOk (some [98]) (.file (.ok [1]))
    (.dirConsOk (some [97]) (.file (.ok [1])) .dirNil)

/-- Directory with files `a` (content `[1]`) and `b` (content `[2]`),
enumerated `a` first. -/
def fsDistinctA : FsNode :=
  .dirConsOk (some [97]) (.file (.ok [1]))
    (.dirConsOk (some [98]) (.file (.ok [2])) .dirNil)

/-- The same directory enumerated `b` first. -/
def fsDistinctB : FsNode :=
  .dirConsOk (some [98]) (.file (.ok [2]))
    (.dirConsOk (some [97]) (.file (.ok [1])) .dirNil)

/-- Directory holding exactly one empty subdirectory named `s`. -/
def fsOneSubdir : FsNode := .dirConsOk (some [115]) .dirNil .dirNil

/-- An error-free one-file chain prefix (file `x` with content `[5]`). -/
def preOneFile : FsNode := .dirConsOk (some [120]) (.file (.ok [5])) .dirNil

/-! ## Claim C1 -/

/-- C1 (amended): for a directory hierarchy in which every directory's
children have pairwise-distinct (kind, hash) sort keys, running
`create_tree` twice with the children of each directory enumerated in two
different orders yields the same returned tree and the same root hash.
(The distinctness hypothesis is forced: with two same-content siblings the
stable sort keeps enumeration order — see the counterexample.) -/
theorem c1_order_independence {σ τ : Type} (fs1 fs2 : FsNode) (h : Reorder fs1 fs2)
    (hg : good fs1 = true) (hk : keysDistinct (entriesOf fs1) = true)
    (hr : isDirRoot fs1 = true)
    (cb1 : σ → Tree → List Nat → σ) (s1 : σ) (cb2 : τ → Tree → List Nat → τ) (s2 : τ) :
    ∃ t s1' s2',
      create_tree cb1 fs1 s1 = .ok (t, s1') ∧
      create_tree cb2 fs2 s2 = .ok (t, s2') ∧
      nodeHash fs1 = nodeHash fs2 := by
  obtain ⟨hg2, hp⟩ := reorder_good h hg
  have hd1 : List.Pairwise keyNe (entriesOf fs1) := (keysDistinct_iff _).mp hk
  have hsort := insertionSort_eq_of_perm hp hd1
  have heq : Tree.calculate_sha1 ⟨entriesOf fs1⟩ = Tree.calculate_sha1 ⟨entriesOf fs2⟩ := by
    simp [Tree.calculate_sha1, Tree.bytes, Tree.sort_entries, hsort]
  have ht : treeOf fs1 = treeOf fs2 := by simp [treeOf, heq]
  have hh : nodeHash fs1 = nodeHash fs2 := by simp [nodeHash, heq]
  refine ⟨treeOf fs1, applyTrace cb1 s1 (createTrace fs1),
    applyTrace cb2 s2 (createTrace fs2),
    create_tree_wf cb1 fs1 (wf_of_good _ hg) hr s1, ?_, hh⟩
  rw [ht]
  exact create_tree_wf cb2 fs2 (wf_of_good _ hg2) (reorder_isDirRoot h hr) s2

/-- Witness for C1 at a concrete input: two distinct-content files
enumerated in both orders give identical trees and root hashes. -/
theorem c1_order_independence_witness :
    Reorder fsDistinctA fsDistinctB ∧ good fsDistinctA = true ∧
    keysDistinct (entriesOf fsDistinctA) = true ∧ isDirRoot fsDistinctA = true ∧
    ∃ t s1' s2',
      create_tree cbCount fsDistinctA 0 = .ok (t, s1') ∧
      create_tree cbCount fsDistinctB 0 = .ok (t, s2') ∧
      nodeHash fsDistinctA = nodeHash fsDistinctB :=
  ⟨Reorder.swap (some [97]) (some [98]) (.file (.ok [1])) (.file (.ok [2])) .dirNil,
   by decide, by decide, rfl,
   c1_order_independence fsDistinctA fsDistinctB
     (Reorder.swap (some [97]) (some [98]) (.file (.ok [1])) (.file (.ok [2])) .dirNil)
     (by decide) (by decide) rfl cbCount 0 cbCount 0⟩

/-- C1 as stated is false: a directory with two files `a` and `b` holding
identical content (identical blob hashes, hence tying sort keys) yields
DIFFERENT root hashes under the two enumeration orders, though both runs
succeed — the stable sort keeps enumeration order on ties, so the name
bytes land in different positions. -/
theorem c1_counterexample :
    Reorder fsDupA fsDupB ∧
    (rootHashOf (create_tree cbCount fsDupA 0)).isSome = true ∧
    (rootHashOf (create_tree cbCount fsDupB 0)).isSome = true ∧
    rootHashOf (create_tree cbCount fsDupA 0) ≠ rootHashOf (create_tree cbCount fsDupB 0) :=
  ⟨Reorder.swap (some [97]) (some [98]) (.file (.ok [1])) (.file (.ok [1])) .dirNil,
   by decide, by decide, by decide⟩

/-! ## Claim C2 -/

/-- C2: `sort_entries` sorts by the total order whose primary key is the
kind (every Blob strictly before every Tree) and whose secondary key is
the lexicographic comparison of the hex hash string, not the name
(`specLe` is that order, taken from the spec's wording); in particular a
tree holding a Tree entry named `b` and a Blob entry named `a` serializes
with the Blob entry first even when the Tree entry's hash sorts lower. -/
theorem c2_sort_order :
    (∀ t : Tree, ((Tree.sort_entries t).entries).Perm t.entries ∧
      List.Pairwise specLe (Tree.sort_entries t).entries) ∧
    (Tree.bytes ⟨[⟨[98], .tree [48]⟩, ⟨[97], .blob [57]⟩]⟩).1 =
      toBytesBE 2 2 ++ Entry.bytes ⟨[97], .blob [57]⟩ ++ Entry.bytes ⟨[98], .tree [48]⟩ := by
  constructor
  · intro t
    exact ⟨List.perm_insertionSort _ _,
      (List.sorted_insertionSort entryLe _).imp fun h => specLe_of_entryLe h⟩
  · decide

/-! ## Claim C3 -/

/-- C3 as stated is false at a concrete entry: the source writes the
2-byte record length FIRST and the kind byte second, not the other way
around (`[0, 6, 0, ...]`, not `[0, 0, 6, ...]`). -/
theorem c3_counterexample :
    Entry.bytes ⟨[97], .blob [48, 49]⟩ ≠ entryBytesKindFirst ⟨[97], .blob [48, 49]⟩ ∧
    Entry.bytes ⟨[97], .blob [48, 49]⟩ = [0, 6, 0, 48, 49, 97] ∧
    entryBytesKindFirst ⟨[97], .blob [48, 49]⟩ = [0, 0, 6, 48, 49, 97] := by
  decide

/-- C3 (amended): every tree entry's binary encoding is laid out as the
2-byte big-endian record length FIRST, then the 1-byte kind tag (0 for
Blob, 1 for Tree), then the hash bytes, then the name bytes, with
`record_length = 3 + len(hash bytes) + len(name bytes)`. -/
theorem c3_entry_layout (e : Entry) :
    Entry.bytes e =
      toBytesBE 2 (2 + 1 + e.oid.get_id.length + e.name.length) ++
        [kindByte e.oid] ++ e.oid.get_id ++ e.name := by
  obtain ⟨n, o⟩ := e
  cases o <;> rfl

/-! ## Claim C4 -/

/-- C4 as stated is false: the hash portion of an entry's encoding is the
ASCII text of the hex oid, not its hex-decoded raw bytes — for oid `"aa"`
the source emits the two ASCII bytes `[97, 97]` (record length 6) where
the claim demands the single raw byte `[170]` (record length 5); and for
the non-hex oid `"zz"` the source encodes successfully instead of failing
with a hex-decode error (which `hex_to_bytes` would report at index 0). -/
theorem c4_counterexample :
    entryBytesDecoded ⟨[97], .blob [97, 97]⟩ = .ok [0, 5, 0, 170, 97] ∧
    Entry.bytes ⟨[97], .blob [97, 97]⟩ = [0, 6, 0, 97, 97, 97] ∧
    Entry.bytes ⟨[97], .blob [97, 97]⟩ ≠ [0, 5, 0, 170, 97] ∧
    hex_to_bytes [122, 122] = .error (.invalidHexDigit 0) ∧
    Entry.bytes ⟨[97], .blob [122, 122]⟩ = [0, 6, 0, 122, 122, 97] := by
  decide

/-- C4 (amended): the hash portion of every entry's encoding is the oid
hex string's own bytes, written as-is after the 3-byte prefix (no hex
decoding takes place and the encoding is total — it never fails, whatever
the oid contains). -/
theorem c4_hash_portion (e : Entry) :
    (Entry.bytes e).take 3 =
      toBytesBE 2 (2 + 1 + e.oid.get_id.length + e.name.length) ++ [kindByte e.oid] ∧
    (Entry.bytes e).drop 3 = e.oid.get_id ++ e.name := by
  obtain ⟨n, o⟩ := e
  cases o <;> simp [Entry.bytes, EntryId.get_id, kindByte, toBytesBE]

/-! ## Claim C5 -/

/-- C5: on a tree whose entries are already sorted, `Tree::bytes`
produces exactly the 2-byte big-endian entry count followed by the
concatenation of the per-entry encodings in that (sorted) order, and every
entry's leading record-length field equals 3 plus its hash byte length
plus its name byte length. -/
theorem c5_serialize_sorted (t : Tree) (hs : List.Pairwise entryLe t.entries) :
    (Tree.bytes t).1 = toBytesBE 2 t.entries.length ++ entriesConcat t.entries ∧
    ∀ e ∈ t.entries, (Entry.bytes e).take 2 =
      toBytesBE 2 (3 + e.oid.get_id.length + e.name.length) := by
  constructor
  · have hfix : List.insertionSort entryLe t.entries = t.entries :=
      List.Sorted.insertionSort_eq hs
    simp [Tree.bytes, Tree.sort_entries, hfix]
  · intro e _
    obtain ⟨n, o⟩ := e
    cases o <;> simp [Entry.bytes, EntryId.get_id, toBytesBE]

/-- Witness for C5 at a concrete sorted two-entry tree. -/
theorem c5_serialize_sorted_witness :
    List.Pairwise entryLe (Tree.mk [⟨[97], .blob [57]⟩, ⟨[98], .tree [48]⟩]).entries ∧
    ((Tree.bytes ⟨[⟨[97], .blob [57]⟩, ⟨[98], .tree [48]⟩]⟩).1 =
      toBytesBE 2 (Tree.mk [⟨[97], .blob [57]⟩, ⟨[98], .tree [48]⟩]).entries.length ++
        entriesConcat (Tree.mk [⟨[97], .blob [57]⟩, ⟨[98], .tree [48]⟩]).entries ∧
     ∀ e ∈ (Tree.mk [⟨[97], .blob [57]⟩, ⟨[98], .tree [48]⟩]).entries,
       (Entry.bytes e).take 2 =
         toBytesBE 2 (3 + e.oid.get_id.length + e.name.length)) :=
  ⟨by decide, c5_serialize_sorted ⟨[⟨[97], .blob [57]⟩, ⟨[98], .tree [48]⟩]⟩ (by decide)⟩

/-! ## Claim C6 -/

/-- C6: sorting a tree's entries is idempotent, and serializing the same
tree value twice in succession (`Tree::bytes` mutates the tree by sorting,
so the second call sees the sorted tree) yields identical byte buffers. -/
theorem c6_sort_idempotent (t : Tree) :
    Tree.sort_entries (Tree.sort_entries t) = Tree.sort_entries t ∧
    (Tree.bytes (Tree.bytes t).2).1 = (Tree.bytes t).1 := by
  constructor
  · simp [Tree.sort_entries, insertionSort_idem]
  · simp [Tree.bytes, Tree.sort_entries, insertionSort_idem]

/-! ## Claim C7 -/

/-- C7 (amended): on a successful run over an error-free directory, the
callback fires exactly on `createTrace` — once per tree completed inside
its own `create_tree` call PLUS once more per subdirectory in the parent's
loop (the parent re-hashes the returned child tree and calls the callback
again), i.e. `2 * subdirCount + 1` times in total; it is never invoked for
a blob (every firing carries a completed `Tree`). -/
theorem c7_callback_count {σ : Type} (cb : σ → Tree → List Nat → σ) (fs : FsNode)
    (hwf : wf fs = true) (hdir : isDirRoot fs = true) (s : σ) :
    create_tree cb fs s = .ok (treeOf fs, applyTrace cb s (createTrace fs)) ∧
    (createTrace fs).length = 2 * subdirCount fs + 1 ∧
    create_tree cbCount fs 0 = .ok (treeOf fs, 2 * subdirCount fs + 1) := by
  have hlen : (createTrace fs).length = 2 * subdirCount fs + 1 := by
    simp [createTrace, traceOf_length]
  refine ⟨create_tree_wf cb fs hwf hdir s, hlen, ?_⟩
  rw [create_tree_wf cbCount fs hwf hdir 0,
    show cbCount = fun n _ _ => n + 1 from rfl, applyTrace_count, hlen, Nat.zero_add]

/-- Witness for C7 at a concrete directory holding one empty subdirectory. -/
theorem c7_callback_count_witness :
    wf fsOneSubdir = true ∧ isDirRoot fsOneSubdir = true ∧
    (create_tree cbCount fsOneSubdir 0 =
        .ok (treeOf fsOneSubdir, applyTrace cbCount 0 (createTrace fsOneSubdir)) ∧
      (createTrace fsOneSubdir).length = 2 * subdirCount fsOneSubdir + 1 ∧
      create_tree cbCount fsOneSubdir 0 =
        .ok (treeOf fsOneSubdir, 2 * subdirCount fsOneSubdir + 1)) :=
  ⟨rfl, rfl, c7_callback_count cbCount fsOneSubdir rfl rfl 0⟩

/-- C7 as stated is false: for a directory holding one empty subdirectory
(two tree objects in total) the callback fires 3 times, not 2 — the
subdirectory's tree is reported twice (once by its own `create_tree` call
and once more by the parent's loop). -/
theorem c7_counterexample :
    countOf (create_tree cbCount fsOneSubdir 0) = some 3 ∧
    subdirCount fsOneSubdir + 1 = 2 ∧ (3 : Nat) ≠ 2 := by
  decide

/-! ## Claim C8 -/

/-- C8 (amended): a `read_dir` failure on the walked directory itself or
on any subdirectory at ANY nesting depth, and a blob-hashing failure on
any file at any depth — each sitting after an error-free prefix of its
own directory's enumeration, below error-free ancestor levels — aborts
the build immediately and returns that exact error to the caller of the
top-level invocation; but an `Err` yielded for an individual directory
entry, or a file name that is not valid Unicode (again at any depth),
make the builder PANIC (`.unwrap()`), not return the error. -/
theorem c8_error_propagation {σ : Type} (cb : σ → Tree → List Nat → σ) (s : σ)
    (e : IOErr) (ctx : List (FsNode × List Nat × FsNode))
    (hctx : ∀ p ∈ ctx, wf p.1 = true) (pre : FsNode) (hpre : wf pre = true) :
    create_tree cb (.dirErr e) s = .fail e ∧
    (∀ nm rest, create_tree cb
      (plugChain ctx (appendChain pre (.dirConsOk (some nm) (.file (.error e)) rest))) s
        = .fail e) ∧
    (∀ nm rest, create_tree cb
      (plugChain ctx (appendChain pre (.dirConsOk (some nm) (.dirErr e) rest))) s
        = .fail e) ∧
    (∀ rest, create_tree cb
      (plugChain ctx (appendChain pre (.dirConsErr e rest))) s = .panicked) ∧
    (∀ child rest, create_tree cb
      (plugChain ctx (appendChain pre (.dirConsOk none child rest))) s = .panicked) := by
  have hbadf : ∀ v, (BuildResult.fail e : BuildResult (List Entry × σ)) ≠ .ok v := by
    intro v h; cases h
  have hbadp : ∀ v, (BuildResult.panicked : BuildResult (List Entry × σ)) ≠ .ok v := by
    intro v h; cases h
  refine ⟨rfl, ?_, ?_, ?_, ?_⟩
  · intro nm rest
    have htail : isDirRoot (appendChain pre (.dirConsOk (some nm) (.file (.error e)) rest))
        = true :=
      appendChain_isDirRoot pre hpre (.dirConsOk (some nm) (.file (.error e)) rest) rfl
    have hres : ∀ s' : σ,
        walkItems cb (appendChain pre (.dirConsOk (some nm) (.file (.error e)) rest)) s'
          = .fail e :=
      fun s' => walkItems_append_bad cb (BuildResult.fail e) hbadf pre hpre
        (.dirConsOk (some nm) (.file (.error e)) rest) (fun _ => rfl) s'
    have hwalk := walkItems_plug_bad cb (BuildResult.fail e) hbadf ctx hctx _ htail hres s
    rw [create_tree_of_walk cb _ (plugChain_isDirRoot ctx hctx _ htail) s, hwalk]
  · intro nm rest
    have htail : isDirRoot (appendChain pre (.dirConsOk (some nm) (.dirErr e) rest))
        = true :=
      appendChain_isDirRoot pre hpre (.dirConsOk (some nm) (.dirErr e) rest) rfl
    have hres : ∀ s' : σ,
        walkItems cb (appendChain pre (.dirConsOk (some nm) (.dirErr e) rest)) s'
          = .fail e :=
      fun s' => walkItems_append_bad cb (BuildResult.fail e) hbadf pre hpre
        (.dirConsOk (some nm) (.dirErr e) rest) (fun _ => rfl) s'
    have hwalk := walkItems_plug_bad cb (BuildResult.fail e) hbadf ctx hctx _ htail hres s
    rw [create_tree_of_walk cb _ (plugChain_isDirRoot ctx hctx _ htail) s, hwalk]
  · intro rest
    have htail : isDirRoot (appendChain pre (.dirConsErr e rest)) = true :=
      appendChain_isDirRoot pre hpre (.dirConsErr e rest) rfl
    have hres : ∀ s' : σ,
        walkItems cb (appendChain pre (.dirConsErr e rest)) s' = .panicked :=
      fun s' => walkItems_append_bad cb BuildResult.panicked hbadp pre hpre
        (.dirConsErr e rest) (fun _ => rfl) s'
    have hwalk := walkItems_plug_bad cb BuildResult.panicked hbadp ctx hctx _ htail hres s
    rw [create_tree_of_walk cb _ (plugChain_isDirRoot ctx hctx _ htail) s, hwalk]
  · intro child rest
    have htail : isDirRoot (appendChain pre (.dirConsOk none child rest)) = true :=
      appendChain_isDirRoot pre hpre (.dirConsOk none child rest) rfl
    have hres : ∀ s' : σ,
        walkItems cb (appendChain pre (.dirConsOk none child rest)) s' = .panicked :=
      fun s' => walkItems_append_bad cb BuildResult.panicked hbadp pre hpre
        (.dirConsOk none child rest) (fun _ => rfl) s'
    have hwalk := walkItems_plug_bad cb BuildResult.panicked hbadp ctx hctx _ htail hres s
    rw [create_tree_of_walk cb _ (plugChain_isDirRoot ctx hctx _ htail) s, hwalk]

/-- Witness for C8: the failing directory sits one level deep (below a
subdirectory named `d` of the root, whose listing also starts with the
error-free one-file prefix), and its own enumeration starts with that
same error-free prefix. -/
theorem c8_error_propagation_witness :
    (∀ p ∈ [(preOneFile, ([100] : List Nat), FsNode.dirNil)], wf p.1 = true) ∧
    wf preOneFile = true ∧
    (create_tree cbCount (.dirErr ⟨9⟩) 0 = .fail ⟨9⟩ ∧
     (∀ nm rest, create_tree cbCount
       (plugChain [(preOneFile, [100], FsNode.dirNil)]
         (appendChain preOneFile (.dirConsOk (some nm) (.file (.error ⟨9⟩)) rest))) 0
           = .fail ⟨9⟩) ∧
     (∀ nm rest, create_tree cbCount
       (plugChain [(preOneFile, [100], FsNode.dirNil)]
         (appendChain preOneFile (.dirConsOk (some nm) (.dirErr ⟨9⟩) rest))) 0
           = .fail ⟨9⟩) ∧
     (∀ rest, create_tree cbCount
       (plugChain [(preOneFile, [100], FsNode.dirNil)]
         (appendChain preOneFile (.dirConsErr ⟨9⟩ rest))) 0 = .panicked) ∧
     (∀ child rest, create_tree cbCount
       (plugChain [(preOneFile, [100], FsNode.dirNil)]
         (appendChain preOneFile (.dirConsOk none child rest))) 0 = .panicked)) :=
  ⟨by decide, rfl,
   c8_error_propagation cbCount 0 ⟨9⟩ [(preOneFile, [100], FsNode.dirNil)]
     (by decide) preOneFile rfl⟩

/-- C8 as stated is false: an `Err` yielded for an individual entry during
enumeration, and a non-Unicode file name, cause a panic (`.unwrap()`), not
a returned `Result` error. -/
theorem c8_counterexample :
    create_tree cbCount (.dirConsErr ⟨7⟩ .dirNil) 0 = .panicked ∧
    (BuildResult.panicked : BuildResult (Tree × Nat)) ≠ .fail ⟨7⟩ ∧
    create_tree cbCount (.dirConsOk none (.file (.ok [1])) .dirNil) 0 = .panicked := by
  decide

/-! ## Claim C9 -/

/-- C9: writing into the store is idempotent: if the destination path
(2-hex-char subfolder, remaining hex chars as file name) already exists,
`write_file_blob` returns success leaving the store unchanged; writing the
same content twice starting from a store without that path leaves exactly
one file at that path. -/
theorem c9_idempotent_write (c : List Nat) (st : Store)
    (hfresh : Store.lookup st ((sha1Hex c).take 2, (sha1Hex c).drop 2) = none) :
    (∀ st' : Store, (Store.lookup st' ((sha1Hex c).take 2, (sha1Hex c).drop 2)).isSome →
      write_file_blob (.ok c) st' = .ok st') ∧
    write_file_blob (.ok c) st =
      .ok ((((sha1Hex c).take 2, (sha1Hex c).drop 2), c) :: st) ∧
    write_file_blob (.ok c) ((((sha1Hex c).take 2, (sha1Hex c).drop 2), c) :: st) =
      .ok ((((sha1Hex c).take 2, (sha1Hex c).drop 2), c) :: st) ∧
    Store.countKey ((((sha1Hex c).take 2, (sha1Hex c).drop 2), c) :: st)
      ((sha1Hex c).take 2, (sha1Hex c).drop 2) = 1 := by
  refine ⟨?_, ?_, ?_, ?_⟩
  · intro st' hex
    rcases hsome : Store.lookup st' ((sha1Hex c).take 2, (sha1Hex c).drop 2) with _ | v
    · rw [hsome] at hex; cases hex
    · simp [write_file_blob, blob.calculate_sha1, hsome]
  · simp [write_file_blob, blob.calculate_sha1, hfresh]
  · simp [write_file_blob, blob.calculate_sha1, Store.lookup]
  · simp [Store.countKey, countKey_zero_of_lookup_none st _ hfresh]

/-- Witness for C9 at a concrete content and the empty store. -/
theorem c9_idempotent_write_witness :
    Store.lookup ([] : Store) ((sha1Hex [1]).take 2, (sha1Hex [1]).drop 2) = none ∧
    ((∀ st' : Store, (Store.lookup st' ((sha1Hex [1]).take 2, (sha1Hex [1]).drop 2)).isSome →
        write_file_blob (.ok [1]) st' = .ok st') ∧
      write_file_blob (.ok [1]) [] =
        .ok [(((sha1Hex [1]).take 2, (sha1Hex [1]).drop 2), [1])] ∧
      write_file_blob (.ok [1]) [(((sha1Hex [1]).take 2, (sha1Hex [1]).drop 2), [1])] =
        .ok [(((sha1Hex [1]).take 2, (sha1Hex [1]).drop 2), [1])] ∧
      Store.countKey [(((sha1Hex [1]).take 2, (sha1Hex [1]).drop 2), [1])]
        ((sha1Hex [1]).take 2, (sha1Hex [1]).drop 2) = 1) :=
  ⟨rfl, c9_idempotent_write [1] [] rfl⟩

/-! ## Claim C10 -/

/-- C10: for a directory with no children, `create_tree` returns the
zero-entry tree, whose serialization is exactly the two bytes `[0, 0]`;
the callback is invoked exactly once (the returned state is one callback
application), and the empty tree's hash is the fixed value
`sha1Hex [0, 0]`. -/
theorem c10_empty_dir {σ : Type} (cb : σ → Tree → List Nat → σ) (s : σ) :
    create_tree cb FsNode.dirNil s = .ok (⟨[]⟩, cb s ⟨[]⟩ (sha1Hex [0, 0])) ∧
    (Tree.bytes ⟨[]⟩).1 = [0, 0] ∧
    nodeHash FsNode.dirNil = sha1Hex [0, 0] := by
  exact ⟨rfl, rfl, rfl⟩

end DiffFs
